import Mathlib

/-!
Verification of the HTML export pipeline of vnote's `WebViewExporter`
(`src/unnamed/part_000`).  The C++ code is shallowly embedded: strings are
`List Char`, the Qt regular-expression scans are implemented as executable
matchers for the two concrete patterns appearing in the source, external
library services (`WebUtils`, `PathUtils`, `HtmlTemplateHelper`, the
renderer) are passed in as function parameters, and the polling loops are
modelled over explicit traces of per-iteration observations.
-/

namespace vnotex

/-! ## Render-completion state machine -/

/-- Modelled from the spec: the `WebViewState` enum lives in
`webviewexporter.h`, which is not part of the provided sources.  Per spec
§3, the state is "a bitset of independent boolean facts
{LoadFinished, WorkFinished, Failed}", reset to the empty (`Started`)
value at the start of each export; the three flags are therefore distinct
bits of a `Nat` bitset. -/
def WebViewStateStarted : Nat := 0

/-- Modelled from the spec: the `LoadFinished` bit of the state bitset. -/
def WebViewStateLoadFinished : Nat := 1

/-- Modelled from the spec: the `WorkFinished` bit of the state bitset. -/
def WebViewStateWorkFinished : Nat := 2

/-- Modelled from the spec: the `Failed` bit of the state bitset. -/
def WebViewStateFailed : Nat := 4

/-- `WebViewExporter::isWebViewReady`:
`m_webViewStates == (WebViewState::LoadFinished | WebViewState::WorkFinished)`. -/
def isWebViewReady (s : Nat) : Bool :=
  s == (WebViewStateLoadFinished ||| WebViewStateWorkFinished)

/-- `WebViewExporter::isWebViewFailed`: `m_webViewStates & WebViewState::Failed`. -/
def isWebViewFailed (s : Nat) : Bool :=
  (s &&& WebViewStateFailed) != 0

/-- The three asynchronous renderer signals that can mutate the state bitset.
In `WebViewExporter::prepare` the `loadFinished` and `workFinished` signals
are wired to OR their bit into `m_webViewStates`; a failure signal sets the
`Failed` bit (spec §4.1). -/
inductive WebViewSignal
  | load
  | work
  | failed
deriving DecidableEq, BEq

/-- Bit OR-ed into the state bitset by each signal callback. -/
def signalBit : WebViewSignal → Nat
  | .load => WebViewStateLoadFinished
  | .work => WebViewStateWorkFinished
  | .failed => WebViewStateFailed

/-- One signal callback: `m_webViewStates |= bit` (see the lambdas connected
in `WebViewExporter::prepare`). -/
def applySignal (s : Nat) (sig : WebViewSignal) : Nat :=
  s ||| signalBit sig

/-- The state reached after a sequence of signal callbacks has fired. -/
def applySignals (s : Nat) (sigs : List WebViewSignal) : Nat :=
  sigs.foldl applySignal s

/-- The bitset holding exactly the given three flags. -/
def encodeStates (l w f : Bool) : Nat :=
  (cond l WebViewStateLoadFinished 0) |||
    (cond w WebViewStateWorkFinished 0) |||
    (cond f WebViewStateFailed 0)

theorem applySignal_encode_load (l w f : Bool) :
    applySignal (encodeStates l w f) .load = encodeStates true w f := by
  cases l <;> cases w <;> cases f <;> decide

theorem applySignal_encode_work (l w f : Bool) :
    applySignal (encodeStates l w f) .work = encodeStates l true f := by
  cases l <;> cases w <;> cases f <;> decide

theorem applySignal_encode_failed (l w f : Bool) :
    applySignal (encodeStates l w f) .failed = encodeStates l w true := by
  cases l <;> cases w <;> cases f <;> decide

theorem signalBeq (a b : WebViewSignal) : (a == b) = decide (a = b) := by
  cases a <;> cases b <;> decide

theorem applySignals_encode (sigs : List WebViewSignal) :
    ∀ l w f : Bool,
      applySignals (encodeStates l w f) sigs =
        encodeStates (l || sigs.contains .load) (w || sigs.contains .work)
          (f || sigs.contains .failed) := by
  induction sigs with
  | nil => intro l w f; simp [applySignals]
  | cons sig rest ih =>
    intro l w f
    have hstep : applySignals (encodeStates l w f) (sig :: rest) =
        applySignals (applySignal (encodeStates l w f) sig) rest := rfl
    cases sig with
    | load =>
      rw [hstep, applySignal_encode_load, ih]
      simp [List.contains_cons, signalBeq, Bool.or_assoc]
    | work =>
      rw [hstep, applySignal_encode_work, ih]
      simp [List.contains_cons, signalBeq, Bool.or_assoc]
    | failed =>
      rw [hstep, applySignal_encode_failed, ih]
      simp [List.contains_cons, signalBeq, Bool.or_assoc]

theorem isWebViewReady_encode (l w f : Bool) :
    isWebViewReady (encodeStates l w f) = (l && w && !f) := by
  cases l <;> cases w <;> cases f <;> decide

/-- C1: for every value of the render-state bitset reachable from the
`Started` state by a sequence of signal callbacks (in any order),
`isWebViewReady()` returns true if and only if both the `LoadFinished` and
`WorkFinished` flags have been set and the `Failed` flag has not. -/
theorem isWebViewReady_iff_both_finished_and_not_failed
    (sigs : List WebViewSignal) :
    isWebViewReady (applySignals WebViewStateStarted sigs) =
      (sigs.contains .load && sigs.contains .work && !sigs.contains .failed) := by
  have h0 : WebViewStateStarted = encodeStates false false false := by decide
  rw [h0, applySignals_encode sigs false false false, isWebViewReady_encode]
  simp

/-- C2: once the `Failed` flag has been set in the render-state bitset,
every subsequent call to `isWebViewReady()` returns false, for every
subsequent sequence of signal callbacks (which can only OR bits in). -/
theorem isWebViewReady_false_after_failed (l w : Bool)
    (sigs : List WebViewSignal) :
    isWebViewReady (applySignals (encodeStates l w true) sigs) = false := by
  rw [applySignals_encode sigs l w true, isWebViewReady_encode]
  simp

/-! ## The `doExport` readiness-polling loop -/

/-- What the polling loop in `WebViewExporter::doExport` observes after one
`Utils::sleepWait(100)` interval: the current value of `m_webViewStates`
(as mutated by any signal callbacks dispatched during the wait) and the
current value of the cooperative cancellation flag `m_askedToStop`
(set by `WebViewExporter::stop`). -/
structure PollObs where
  states : Nat
  stop : Bool

/-- Outcome of the `while (!isWebViewReady())` loop in
`WebViewExporter::doExport`, lines 59–70. -/
inductive WaitOutcome
  | ready
  | cancelled
  | failedView
  | pending
deriving DecidableEq

/-- The readiness-polling loop of `WebViewExporter::doExport`, over an
explicit trace of per-iteration observations.  Each iteration first checks
`isWebViewReady()` on the current state, then sleeps (consuming one
observation), then checks `m_askedToStop`, then `isWebViewFailed()`.  A
trace that runs out while the loop would still be waiting yields
`pending` (the real loop would keep blocking; the spec notes no timeout
exists). -/
def doExportWait (s : Nat) : List PollObs → WaitOutcome
  | [] => if isWebViewReady s then .ready else .pending
  | o :: rest =>
    if isWebViewReady s then .ready
    else if o.stop then .cancelled
    else if isWebViewFailed o.states then .failedView
    else doExportWait o.states rest

/-- Target format dispatch of `WebViewExporter::doExport` (only `HTML` is
implemented; the `default` branch leaves `ret == false`). -/
inductive ExportFormat
  | html
  | other
deriving DecidableEq

/-- `WebViewExporter::doExport` after the document has been handed to the
renderer: `ret = false` initially; the polling loop either reaches
readiness, is cancelled (`goto exit_export`), or observes failure
(`goto exit_export`); on readiness the format switch runs and for `HTML`
invokes `doExportHtml`, whose result is `htmlResult` here.  The value is
`some (returnValue, doExportHtmlInvoked)`, or `none` when the trace ended
with the loop still blocked. -/
def doExportModel (fmt : ExportFormat) (s0 : Nat) (obs : List PollObs)
    (htmlResult : Bool) : Option (Bool × Bool) :=
  match doExportWait s0 obs with
  | .pending => none
  | .cancelled => some (false, false)
  | .failedView => some (false, false)
  | .ready =>
    match fmt with
    | .html => some (htmlResult, true)
    | .other => some (false, false)

theorem doExportWait_cancelled (pre : List PollObs) :
    ∀ (s0 : Nat) (o : PollObs) (rest : List PollObs),
      isWebViewReady s0 = false →
      (∀ p ∈ pre, p.stop = false ∧ isWebViewFailed p.states = false ∧
        isWebViewReady p.states = false) →
      o.stop = true →
      doExportWait s0 (pre ++ o :: rest) = .cancelled := by
  induction pre with
  | nil =>
    intro s0 o rest h0 _ hstop
    simp [doExportWait, h0, hstop]
  | cons p ps ih =>
    intro s0 o rest h0 hpre hstop
    have hp := hpre p (by simp)
    have hps : ∀ q ∈ ps, q.stop = false ∧ isWebViewFailed q.states = false ∧
        isWebViewReady q.states = false := by
      intro q hq; exact hpre q (by simp [hq])
    simp only [List.cons_append, doExportWait, h0, hp.1, hp.2.1,
      Bool.false_eq_true, if_false]
    exact ih p.states o rest hp.2.2 hps hstop

/-- C3: if `stop()` sets the cancellation flag while `doExport` is in its
readiness-polling loop (readiness not reached at the initial state nor at
any earlier poll, no earlier stop or failure), then `doExport` returns
`false` at that very poll checkpoint — independently of the rest of the
trace — and `doExportHtml` is never invoked. -/
theorem doExport_stop_cancels (fmt : ExportFormat) (s0 : Nat)
    (pre : List PollObs) (o : PollObs) (rest : List PollObs)
    (htmlResult : Bool)
    (h0 : isWebViewReady s0 = false)
    (hpre : ∀ p ∈ pre, p.stop = false ∧ isWebViewFailed p.states = false ∧
      isWebViewReady p.states = false)
    (hstop : o.stop = true) :
    doExportModel fmt s0 (pre ++ o :: rest) htmlResult = some (false, false) := by
  unfold doExportModel
  rw [doExportWait_cancelled pre s0 o rest h0 hpre hstop]

/-- Witness for C3 at a concrete trace: one quiet poll iteration, then a
poll at which the stop flag is observed. -/
theorem doExport_stop_cancels_witness :
    doExportModel .html 0 ([⟨0, false⟩] ++ ⟨3, true⟩ :: [⟨3, false⟩]) true =
      some (false, false) :=
  doExport_stop_cancels .html 0 [⟨0, false⟩] ⟨3, true⟩ [⟨3, false⟩] true
    (by decide) (by intro p hp; simp at hp; subst hp; refine ⟨rfl, by decide, by decide⟩)
    rfl

/-! ## The `doExportHtml` content-ready handler -/

/-- The one-shot `contentReady` handler registered in
`WebViewExporter::doExportHtml` (lines 118–142): given the delivered
fragments, the cancellation flag at handler time, and the result of
`writeHtmlFile` (passed in as `writeResult`), it produces the tri-state
flag (`0` Busy, `1` Finished, `-1` Failed) together with whether
`writeHtmlFile` was invoked. -/
def contentReadyHandler (askedToStop : Bool)
    (bodyContent : List Char) (writeResult : Bool) : Int × Bool :=
  if bodyContent.isEmpty || askedToStop then (-1, false)
  else if writeResult then (1, true)
  else (-1, true)

/-- `WebViewExporter::doExportHtml`, assuming the `contentReady` callback
fires (it is one-shot: it disconnects itself first).  The subroutine's wait
loop polls until the tri-state flag leaves Busy; once the handler has run
the flag is `1` or `-1` and the subroutine returns `state == 1`.  The
result is `(returnValue, writeHtmlFileInvoked)`.  The `headContent` and
`styleContent` fragments are carried to reflect the handler's signature;
they do not influence the failure checks. -/
def doExportHtmlModel (askedToStop : Bool)
    (headContent styleContent bodyContent : List Char)
    (writeResult : Bool) : Bool × Bool :=
  let _ := headContent
  let _ := styleContent
  let r := contentReadyHandler askedToStop bodyContent writeResult
  (r.1 == 1, r.2)

/-- C5: for every head content and style content (and every cancellation
flag and `writeHtmlFile` outcome), if the content-ready callback delivers
an empty body fragment then `doExportHtml` reports failure and
`writeHtmlFile` is not invoked. -/
theorem doExportHtml_empty_body_fails (askedToStop : Bool)
    (headContent styleContent : List Char) (writeResult : Bool) :
    doExportHtmlModel askedToStop headContent styleContent [] writeResult =
      (false, false) := by
  simp [doExportHtmlModel, contentReadyHandler]

/-! ## String scanning utilities -/

/-- `QString::replace(idx, len, after)`: splice `repl` over the `len`
characters that start at index `idx`. -/
def replaceAt (s : List Char) (idx len : Nat) (repl : List Char) : List Char :=
  s.take idx ++ repl ++ s.drop (idx + len)

theorem replaceAt_length {s : List Char} {idx len : Nat} (repl : List Char)
    (h : idx + len ≤ s.length) :
    (replaceAt s idx len repl).length = s.length - len + repl.length := by
  simp only [replaceAt, List.length_append, List.length_take, List.length_drop]
  omega

/-- QRegExp word character (for the `\b` assertion); the subject strings of
the claims are ASCII, where a word character is a letter, a digit or `_`. -/
def wordChar (c : Char) : Bool := c.isAlphanum || c == '_'

/-! ## The style `url()` pattern of `embedStyleResources` -/

/-- The `(file|qrc)` alternative of QRegExp
`\burl\("((file|qrc):[^"\)]+)"\);` together with the following `:`;
returns the consumed scheme prefix and the remaining characters. -/
def schemeColon (l : List Char) : Option (List Char × List Char) :=
  match l with
  | 'f' :: 'i' :: 'l' :: 'e' :: ':' :: r => some (['f', 'i', 'l', 'e', ':'], r)
  | 'q' :: 'r' :: 'c' :: ':' :: r => some (['q', 'r', 'c', ':'], r)
  | _ => none

/-- The character class `[^"\)]` of the style pattern. -/
def urlChar (c : Char) : Bool := !(c == '"' || c == ')')

/-- Match the style pattern `\burl\("((file|qrc):[^"\)]+)"\);` at the very
beginning of `l` (the `\b` assertion is checked by the caller); returns
capture 1 on success.  The greedy `[^"\)]+` needs no backtracking: the
character after the maximal run must be the literal `"`, which the class
excludes, so a shorter run can never succeed. -/
def styleMatchHere (l : List Char) : Option (List Char) :=
  match l with
  | 'u' :: 'r' :: 'l' :: '(' :: '"' :: rest =>
    match schemeColon rest with
    | none => none
    | some (sc, r2) =>
      let run := r2.takeWhile urlChar
      let r3 := r2.dropWhile urlChar
      if run.isEmpty then none
      else
        match r3 with
        | '"' :: ')' :: ';' :: _ => some (sc ++ run)
        | _ => none
  | _ => none

/-- `reg.matchedLength()` of the style pattern: `url("` + capture 1 + `");`. -/
def styleMatchedLen (cap : List Char) : Nat := cap.length + 8

/-- The `\b` assertion for a match starting right after character `prev`
(`none` at the start of the subject).  The pattern starts with the word
character `u`, so the boundary holds iff `prev` is not a word character. -/
def boundaryOk (prev : Option Char) : Bool :=
  match prev with
  | none => true
  | some c => !wordChar c

/-- `QString::indexOf(reg, pos)` for the style pattern: scan the suffix `s`
of the subject that starts at index `idx`; `prev` is the subject character
at `idx - 1`. -/
def findStyleAux (prev : Option Char) (s : List Char) (idx : Nat) :
    Option (Nat × List Char) :=
  match s with
  | [] => none
  | c :: rest =>
    if boundaryOk prev then
      match styleMatchHere (c :: rest) with
      | some cap => some (idx, cap)
      | none => findStyleAux (some c) rest (idx + 1)
    else findStyleAux (some c) rest (idx + 1)

/-- `p_html.indexOf(reg, pos)` for the style pattern: first match starting
at an index `≥ pos`, with its capture 1. -/
def findStyle (html : List Char) (pos : Nat) : Option (Nat × List Char) :=
  findStyleAux (if pos = 0 then none else (html.take pos).getLast?)
    (html.drop pos) pos

theorem schemeColon_spec {l sc r : List Char}
    (h : schemeColon l = some (sc, r)) : l.length = sc.length + r.length := by
  unfold schemeColon at h
  split at h <;> simp_all
  · obtain ⟨h1, h2⟩ := h; subst h1; subst h2; simp; omega
  · obtain ⟨h1, h2⟩ := h; subst h1; subst h2; simp; omega

theorem styleMatchHere_spec {l cap : List Char}
    (h : styleMatchHere l = some cap) :
    cap ≠ [] ∧ styleMatchedLen cap ≤ l.length := by
  unfold styleMatchHere at h
  split at h
  case h_2 => exact absurd h (by simp)
  case h_1 rest =>
    revert h
    split
    case h_1 => intro h; exact absurd h (by simp)
    case h_2 sc r2 hsc =>
      have hlen := schemeColon_spec hsc
      have hsplit : (r2.takeWhile urlChar).length + (r2.dropWhile urlChar).length
          = r2.length := by
        conv_rhs => rw [← List.takeWhile_append_dropWhile (p := urlChar) (l := r2)]
        rw [List.length_append]
      simp only
      split
      · intro h; exact absurd h (by simp)
      · next hrun =>
        split
        · next t hr3 =>
          intro h
          have hcap : sc ++ r2.takeWhile urlChar = cap := by
            simpa using h
          have hr3len : (r2.dropWhile urlChar).length = 3 + t.length := by
            rw [hr3]; simp; omega
          have hrunne : r2.takeWhile urlChar ≠ [] := by
            intro hnil
            rw [hnil] at hrun
            simp at hrun
          constructor
          · intro hnil
            rw [← hcap] at hnil
            exact hrunne (List.append_eq_nil.mp hnil).2
          · rw [← hcap]
            simp only [styleMatchedLen, List.length_cons, List.length_append]
            omega
        · intro h; exact absurd h (by simp)

theorem findStyleAux_spec {s : List Char} :
    ∀ {prev : Option Char} {idx i : Nat} {cap : List Char},
      findStyleAux prev s idx = some (i, cap) →
      idx ≤ i ∧ cap ≠ [] ∧ i + styleMatchedLen cap ≤ idx + s.length := by
  induction s with
  | nil => intro prev idx i cap h; simp [findStyleAux] at h
  | cons c rest ih =>
    intro prev idx i cap h
    unfold findStyleAux at h
    split at h
    · revert h
      split
      · next cap2 hm =>
        intro h
        simp only [Option.some.injEq, Prod.mk.injEq] at h
        obtain ⟨h1, h2⟩ := h
        subst h1; subst h2
        have hmm := styleMatchHere_spec hm
        refine ⟨le_refl _, hmm.1, ?_⟩
        have := hmm.2
        simp only [List.length_cons] at this ⊢
        omega
      · intro h
        obtain ⟨ha, hb, hc⟩ := ih h
        refine ⟨by omega, hb, ?_⟩
        simp only [List.length_cons]
        omega
    · obtain ⟨ha, hb, hc⟩ := ih h
      refine ⟨by omega, hb, ?_⟩
      simp only [List.length_cons]
      omega

theorem findStyle_spec {html : List Char} {pos i : Nat} {cap : List Char}
    (h : findStyle html pos = some (i, cap)) (hpos : pos ≤ html.length) :
    pos ≤ i ∧ cap ≠ [] ∧ i + styleMatchedLen cap ≤ html.length := by
  have := findStyleAux_spec h
  rcases this with ⟨h1, h2, h3⟩
  refine ⟨h1, h2, ?_⟩
  rw [List.length_drop] at h3
  omega

/-! ## `WebViewExporter::embedStyleResources` -/

/-- One iteration of the scan loop of `WebViewExporter::embedStyleResources`
(lines 249–266): find the next match at or after `pos`; on a failed
conversion skip just past the match, otherwise splice in
`url('<data-uri>');` and continue just past the replacement.  Returns
`none` when the loop exits (cursor at or past the end, or no further
match); otherwise `some (html, pos, idx, altered)` of the next iteration,
with `idx` the index of the examined match.  `toDataUri` stands for
`WebUtils::toDataUri(QUrl(reg.cap(1)), false)`; an empty result models a
failed conversion. -/
def embedStyleStep (toDataUri : List Char → List Char) (html : List Char)
    (pos : Nat) : Option (List Char × Nat × Nat × Bool) :=
  if pos < html.length then
    match findStyle html pos with
    | none => none
    | some (idx, cap) =>
      let dataURI := toDataUri cap
      if dataURI.isEmpty then some (html, idx + styleMatchedLen cap, idx, false)
      else
        let newUrl := ['u', 'r', 'l', '(', Char.ofNat 39] ++ dataURI ++
          [Char.ofNat 39, ')', ';']
        some (replaceAt html idx (styleMatchedLen cap) newUrl,
          idx + newUrl.length, idx, true)
  else none

theorem embedStyleStep_advances {toDataUri : List Char → List Char}
    {html html2 : List Char} {pos pos2 idx : Nat} {alt : Bool}
    (h : embedStyleStep toDataUri html pos = some (html2, pos2, idx, alt)) :
    pos ≤ idx ∧ idx < pos2 ∧ html2.length - pos2 < html.length - pos := by
  unfold embedStyleStep at h
  split at h
  case isFalse => exact absurd h (by simp)
  case isTrue hlt =>
    revert h
    split
    · intro h; exact absurd h (by simp)
    · next idx0 cap hfind =>
      have hf := findStyle_spec hfind (le_of_lt hlt)
      have hcaplen : 1 ≤ cap.length := by
        have := hf.2.1
        cases cap with
        | nil => exact absurd rfl this
        | cons a t => simp
      simp only
      split
      · intro h
        simp only [Option.some.injEq, Prod.mk.injEq] at h
        obtain ⟨h1, h2, h3, _⟩ := h
        subst h1; subst h2; subst h3
        have := hf.2.2
        simp only [styleMatchedLen] at this ⊢
        omega
      · intro h
        simp only [Option.some.injEq, Prod.mk.injEq] at h
        obtain ⟨h1, h2, h3, _⟩ := h
        subst h1; subst h2; subst h3
        have hlen := replaceAt_length
          (['u', 'r', 'l', '(', Char.ofNat 39] ++ toDataUri cap ++
            [Char.ofNat 39, ')', ';']) hf.2.2
        rw [hlen]
        simp only [List.length_append, List.length_cons, List.length_nil,
          styleMatchedLen] at *
        omega

/-- The scan loop of `WebViewExporter::embedStyleResources`, iterating
`embedStyleStep` until it exits. -/
def embedStyleGo (toDataUri : List Char → List Char) (html : List Char)
    (pos : Nat) (altered : Bool) : List Char × Bool :=
  match h : embedStyleStep toDataUri html pos with
  | none => (html, altered)
  | some (html2, pos2, _, alt) => embedStyleGo toDataUri html2 pos2 (altered || alt)
termination_by html.length - pos
decreasing_by exact (embedStyleStep_advances h).2.2

/-- `WebViewExporter::embedStyleResources` (lines 244–269): rewrite
`url("file:...");` / `url("qrc:...");` references to data URIs; returns
the rewritten style content and whether any substitution occurred. -/
def embedStyleResources (toDataUri : List Char → List Char)
    (html : List Char) : List Char × Bool :=
  embedStyleGo toDataUri html 0 false

theorem embedStyleGo_none {toDataUri : List Char → List Char}
    {html : List Char} {pos : Nat} (altered : Bool)
    (h : embedStyleStep toDataUri html pos = none) :
    embedStyleGo toDataUri html pos altered = (html, altered) := by
  rw [embedStyleGo.eq_def]
  split
  · rfl
  · next heq => rw [h] at heq; exact absurd heq (by simp)

theorem embedStyleGo_some {toDataUri : List Char → List Char}
    {html html2 : List Char} {pos pos2 idx : Nat} {alt : Bool} (altered : Bool)
    (h : embedStyleStep toDataUri html pos = some (html2, pos2, idx, alt)) :
    embedStyleGo toDataUri html pos altered =
      embedStyleGo toDataUri html2 pos2 (altered || alt) := by
  rw [embedStyleGo.eq_def]
  split
  · next heq => rw [h] at heq; exact absurd heq (by simp)
  · next a b c d heq =>
    rw [h] at heq
    simp only [Option.some.injEq, Prod.mk.injEq] at heq
    obtain ⟨h1, h2, _, h4⟩ := heq
    rw [h1, h2, h4]

/-- Substring occurrence test (used to state the resource-rewriting
round-trip property). -/
def hasSubstr (hay needle : List Char) : Bool :=
  needle.isPrefixOf hay ||
    match hay with
    | [] => false
    | _ :: t => hasSubstr t needle

/-- C7 counterexample: the claim quantifies over every style content that
contains the substring `url("file:///a/b.png")`, but the scanned CSS
pattern `\burl\("((file|qrc):[^"\)]+)"\);` also requires a trailing
semicolon.  For the content consisting of exactly that substring (no
semicolon) the scan finds no match: with the converter that maps every URL
to `DATA`, `embedStyleResources` returns `false`, leaves the content
unchanged, and the output still contains `url("file:` — contradicting all
three of the claim's conclusions at this input. -/
theorem embedStyleResources_no_semicolon_counterexample :
    hasSubstr ("url(\"file:///a/b.png\")".toList)
        ("url(\"file:///a/b.png\")".toList) = true ∧
      embedStyleResources (fun _ => "DATA".toList)
        ("url(\"file:///a/b.png\")".toList) =
        ("url(\"file:///a/b.png\")".toList, false) ∧
      hasSubstr (embedStyleResources (fun _ => "DATA".toList)
        ("url(\"file:///a/b.png\")".toList)).1 ("url(\"file:".toList) = true := by
  have hnone : embedStyleResources (fun _ => "DATA".toList)
      ("url(\"file:///a/b.png\")".toList) =
      ("url(\"file:///a/b.png\")".toList, false) := by
    unfold embedStyleResources
    rw [embedStyleGo_none _ (by decide)]
  refine ⟨by decide, hnone, ?_⟩
  rw [hnone]
  decide

/-- C7 (amended): for the style content `url("file:///a/b.png");` — the
claimed occurrence followed by the semicolon the scanned pattern requires —
running `embedStyleResources` with a converter mapping every URL to the
fixed token `DATA` produces `url('DATA');`, whose text contains
`url('DATA')` and no longer contains the substring `url("file:`, and the
function returns `true` (a substitution occurred). -/
theorem embedStyleResources_rewrites_file_url :
    embedStyleResources (fun _ => "DATA".toList)
        ("url(\"file:///a/b.png\");".toList) = ("url('DATA');".toList, true) ∧
      hasSubstr ("url('DATA');".toList) ("url('DATA')".toList) = true ∧
      hasSubstr ("url('DATA');".toList) ("url(\"file:".toList) = false := by
  refine ⟨?_, by decide, by decide⟩
  unfold embedStyleResources
  rw [embedStyleGo_some false (by decide : embedStyleStep (fun _ => "DATA".toList)
    ("url(\"file:///a/b.png\");".toList) 0 = some ("url('DATA');".toList, 12, 0, true))]
  rw [embedStyleGo_none _ (by decide)]
  rfl

/-! ## The `<img>` pattern `c_imgRegExp` -/

/-- The character class `[^>]` of `c_imgRegExp`. -/
def tagChar (c : Char) : Bool := !(c == '>')

/-- The character class `[^"]` of `c_imgRegExp`. -/
def attrChar (c : Char) : Bool := !(c == '"')

/-- Parse the part of `c_imgRegExp` that follows capture 1:
`src="([^"]+)"([^>]*)>`.  The greedy `[^"]+` and `[^>]*` need no
backtracking: the literal following each class is excluded by it.
Returns captures 2 and 3. -/
def imgParseAfterPre (l : List Char) : Option (List Char × List Char) :=
  match l with
  | 's' :: 'r' :: 'c' :: '=' :: '"' :: r2 =>
    let srcv := r2.takeWhile attrChar
    let r3 := r2.dropWhile attrChar
    if srcv.isEmpty then none
    else
      match r3 with
      | '"' :: r4 =>
        let post := r4.takeWhile tagChar
        let r5 := r4.dropWhile tagChar
        match r5 with
        | '>' :: _ => some (srcv, post)
        | _ => none
      | _ => none
  | _ => none

/-- The greedy backtracking choice of capture 1 (`([^>]*)` before `src="`):
try the longest prefix `run.take k` of the maximal `[^>]` run first and
shrink it until the rest of the pattern parses, exactly as QRegExp
backtracks.  `tl` is the input remaining after the maximal run. -/
def imgTryPre (run tl : List Char) : Nat → Option (List Char × List Char × List Char)
  | 0 =>
    match imgParseAfterPre (run.drop 0 ++ tl) with
    | some (srcv, post) => some (run.take 0, srcv, post)
    | none => none
  | k + 1 =>
    match imgParseAfterPre (run.drop (k + 1) ++ tl) with
    | some (srcv, post) => some (run.take (k + 1), srcv, post)
    | none => imgTryPre run tl k

/-- Match `c_imgRegExp` = `<img ([^>]*)src="([^"]+)"([^>]*)>` at the very
beginning of `l`; returns captures 1–3. -/
def imgMatchHere (l : List Char) : Option (List Char × List Char × List Char) :=
  match l with
  | '<' :: 'i' :: 'm' :: 'g' :: ' ' :: rest =>
    imgTryPre (rest.takeWhile tagChar) (rest.dropWhile tagChar)
      (rest.takeWhile tagChar).length
  | _ => none

/-- `reg.matchedLength()` of `c_imgRegExp`:
`<img ` + capture 1 + `src="` + capture 2 + `"` + capture 3 + `>`. -/
def imgMatchedLen (pre srcv post : List Char) : Nat :=
  pre.length + srcv.length + post.length + 12

/-- `QString::indexOf(reg, pos)` for `c_imgRegExp`: scan the suffix `s` of
the subject that starts at index `idx` (the pattern has no `\b`). -/
def findImgAux (s : List Char) (idx : Nat) :
    Option (Nat × List Char × List Char × List Char) :=
  match s with
  | [] => none
  | c :: rest =>
    match imgMatchHere (c :: rest) with
    | some (pre, srcv, post) => some (idx, pre, srcv, post)
    | none => findImgAux rest (idx + 1)

/-- `p_html.indexOf(reg, pos)` for `c_imgRegExp`: first match starting at
an index `≥ pos`, with its three captures. -/
def findImg (html : List Char) (pos : Nat) :
    Option (Nat × List Char × List Char × List Char) :=
  findImgAux (html.drop pos) pos

theorem imgParseAfterPre_spec {l srcv post : List Char}
    (h : imgParseAfterPre l = some (srcv, post)) :
    srcv ≠ [] ∧ srcv.length + post.length + 7 ≤ l.length := by
  unfold imgParseAfterPre at h
  split at h
  case h_2 => exact absurd h (by simp)
  case h_1 r2 =>
    revert h
    have hsplit2 : (r2.takeWhile attrChar).length + (r2.dropWhile attrChar).length
        = r2.length := by
      conv_rhs => rw [← List.takeWhile_append_dropWhile (p := attrChar) (l := r2)]
      rw [List.length_append]
    simp only
    split
    · intro h; exact absurd h (by simp)
    · next hsrc =>
      split
      · next r4 hr3 =>
        have hsplit4 : (r4.takeWhile tagChar).length + (r4.dropWhile tagChar).length
            = r4.length := by
          conv_rhs => rw [← List.takeWhile_append_dropWhile (p := tagChar) (l := r4)]
          rw [List.length_append]
        split
        · next t hr5 =>
          intro h
          simp only [Option.some.injEq, Prod.mk.injEq] at h
          obtain ⟨h1, h2⟩ := h
          subst h1; subst h2
          have hsrcne : r2.takeWhile attrChar ≠ [] := by
            intro hnil; rw [hnil] at hsrc; simp at hsrc
          have hr3len : (r2.dropWhile attrChar).length = 1 + r4.length := by
            rw [hr3]; simp; omega
          have hr5len : (r4.dropWhile tagChar).length = 1 + t.length := by
            rw [hr5]; simp; omega
          refine ⟨hsrcne, ?_⟩
          simp only [List.length_cons]
          omega
        · intro h; exact absurd h (by simp)
      · intro h; exact absurd h (by simp)

theorem imgTryPre_spec {run tl : List Char} :
    ∀ {k : Nat} {pre srcv post : List Char},
      imgTryPre run tl k = some (pre, srcv, post) →
      srcv ≠ [] ∧
        pre.length + srcv.length + post.length + 7 ≤ run.length + tl.length := by
  intro k
  induction k with
  | zero =>
    intro pre srcv post h
    unfold imgTryPre at h
    revert h
    split
    · next srcv2 post2 hp =>
      intro h
      simp only [Option.some.injEq, Prod.mk.injEq] at h
      obtain ⟨h1, h2, h3⟩ := h
      subst h1; subst h2; subst h3
      have := imgParseAfterPre_spec hp
      rcases this with ⟨h4, h5⟩
      rw [List.length_append, List.length_drop] at h5
      refine ⟨h4, ?_⟩
      simp only [List.take_zero, List.length_nil]
      omega
    · intro h; exact absurd h (by simp)
  | succ k ih =>
    intro pre srcv post h
    unfold imgTryPre at h
    revert h
    split
    · next srcv2 post2 hp =>
      intro h
      simp only [Option.some.injEq, Prod.mk.injEq] at h
      obtain ⟨h1, h2, h3⟩ := h
      subst h1; subst h2; subst h3
      have := imgParseAfterPre_spec hp
      rcases this with ⟨h4, h5⟩
      rw [List.length_append, List.length_drop] at h5
      refine ⟨h4, ?_⟩
      rw [List.length_take]
      omega
    · intro h
      exact ih h

theorem imgMatchHere_spec {l pre srcv post : List Char}
    (h : imgMatchHere l = some (pre, srcv, post)) :
    srcv ≠ [] ∧ imgMatchedLen pre srcv post ≤ l.length := by
  unfold imgMatchHere at h
  split at h
  case h_2 => exact absurd h (by simp)
  case h_1 rest =>
    have hsplit : (rest.takeWhile tagChar).length + (rest.dropWhile tagChar).length
        = rest.length := by
      conv_rhs => rw [← List.takeWhile_append_dropWhile (p := tagChar) (l := rest)]
      rw [List.length_append]
    have := imgTryPre_spec h
    refine ⟨this.1, ?_⟩
    have h2 := this.2
    simp only [imgMatchedLen, List.length_cons]
    omega

theorem findImgAux_spec {s : List Char} :
    ∀ {idx i : Nat} {pre srcv post : List Char},
      findImgAux s idx = some (i, pre, srcv, post) →
      idx ≤ i ∧ srcv ≠ [] ∧ i + imgMatchedLen pre srcv post ≤ idx + s.length := by
  induction s with
  | nil => intro idx i pre srcv post h; simp [findImgAux] at h
  | cons c rest ih =>
    intro idx i pre srcv post h
    unfold findImgAux at h
    revert h
    split
    · next pre2 srcv2 post2 hm =>
      intro h
      simp only [Option.some.injEq, Prod.mk.injEq] at h
      obtain ⟨h1, h2, h3, h4⟩ := h
      subst h1; subst h2; subst h3; subst h4
      have := imgMatchHere_spec hm
      refine ⟨le_refl _, this.1, ?_⟩
      have h2 := this.2
      simp only [List.length_cons] at h2 ⊢
      omega
    · intro h
      obtain ⟨ha, hb, hc⟩ := ih h
      refine ⟨by omega, hb, ?_⟩
      simp only [List.length_cons]
      omega

theorem findImg_spec {html : List Char} {pos i : Nat} {pre srcv post : List Char}
    (h : findImg html pos = some (i, pre, srcv, post)) (hpos : pos ≤ html.length) :
    pos ≤ i ∧ srcv ≠ [] ∧ i + imgMatchedLen pre srcv post ≤ html.length := by
  have := findImgAux_spec h
  rcases this with ⟨h1, h2, h3⟩
  refine ⟨h1, h2, ?_⟩
  rw [List.length_drop] at h3
  omega

/-! ## `getResourceRelativePath` -/

/-- Largest index `i ≤ f` (and `i < s.length`) with `s[i] = c`. -/
def lastIdxLE (s : List Char) (c : Char) : Nat → Option Nat
  | 0 => if s[0]? = some c then some 0 else none
  | n + 1 =>
    if s[n + 1]? = some c then some (n + 1) else lastIdxLE s c n

/-- `QString::lastIndexOf(QChar, int from)` (Qt semantics: a negative
`from` counts from the end of the string, an out-of-range `from` is
clamped to the last character, and the result is `-1` when the character
does not occur at or before `from`). -/
def qLastIndexOfFrom (s : List Char) (c : Char) (f : Int) : Int :=
  let f2 : Int := if f < 0 then f + s.length else f
  if f2 < 0 then -1
  else
    match lastIdxLE s c (min f2.toNat (s.length - 1)) with
    | some i => i
    | none => -1

/-- `QString::lastIndexOf(QChar)`: search from the last character. -/
def qLastIndexOf (s : List Char) (c : Char) : Int := qLastIndexOfFrom s c (-1)

/-- The file-static `getResourceRelativePath` (lines 308–314):
`"." + p_file.mid(p_file.lastIndexOf('/', p_file.lastIndexOf('/') - 1))`.
`QString::mid` with a negative position yields the whole string, which the
`Int.toNat` clamp mirrors; the source asserts (debug-only) that the path
holds at least two slashes. -/
def getResourceRelativePath (p_file : List Char) : List Char :=
  let idx := qLastIndexOf p_file '/'
  let idx2 := qLastIndexOfFrom p_file '/' (idx - 1)
  '.' :: p_file.drop idx2.toNat

/-! ## `WebViewExporter::embedBodyResources` -/

/-- One iteration of the scan loop of `WebViewExporter::embedBodyResources`
(lines 280–303): skip when capture 2 is empty (kept from the source even
though `[^"]+` makes it nonempty) or when the conversion fails; otherwise
replace the tag by `<img <cap1>src='<data-uri>'<cap3>>` and continue past
the replacement.  `toDataUri` stands for
`WebUtils::toDataUri(p_baseUrl.resolved(reg.cap(2)), true)`; an empty
result models a failed conversion. -/
def embedBodyStep (toDataUri : List Char → List Char) (html : List Char)
    (pos : Nat) : Option (List Char × Nat × Nat × Bool) :=
  if pos < html.length then
    match findImg html pos with
    | none => none
    | some (idx, pre, srcv, post) =>
      if srcv.isEmpty then
        some (html, idx + imgMatchedLen pre srcv post, idx, false)
      else
        let dataURI := toDataUri srcv
        if dataURI.isEmpty then
          some (html, idx + imgMatchedLen pre srcv post, idx, false)
        else
          let newUrl := ['<', 'i', 'm', 'g', ' '] ++ pre ++
            ['s', 'r', 'c', '=', Char.ofNat 39] ++ dataURI ++
            [Char.ofNat 39] ++ post ++ ['>']
          some (replaceAt html idx (imgMatchedLen pre srcv post) newUrl,
            idx + newUrl.length, idx, true)
  else none

theorem embedBodyStep_advances {toDataUri : List Char → List Char}
    {html html2 : List Char} {pos pos2 idx : Nat} {alt : Bool}
    (h : embedBodyStep toDataUri html pos = some (html2, pos2, idx, alt)) :
    pos ≤ idx ∧ idx < pos2 ∧ html2.length - pos2 < html.length - pos := by
  unfold embedBodyStep at h
  split at h
  case isFalse => exact absurd h (by simp)
  case isTrue hlt =>
    revert h
    split
    · intro h; exact absurd h (by simp)
    · next idx0 pre srcv post hfind =>
      have hf := findImg_spec hfind (le_of_lt hlt)
      simp only
      split
      · intro h
        simp only [Option.some.injEq, Prod.mk.injEq] at h
        obtain ⟨h1, h2, h3, _⟩ := h
        subst h1; subst h2; subst h3
        have := hf.2.2
        simp only [imgMatchedLen] at this ⊢
        omega
      · split
        · intro h
          simp only [Option.some.injEq, Prod.mk.injEq] at h
          obtain ⟨h1, h2, h3, _⟩ := h
          subst h1; subst h2; subst h3
          have := hf.2.2
          simp only [imgMatchedLen] at this ⊢
          omega
        · intro h
          simp only [Option.some.injEq, Prod.mk.injEq] at h
          obtain ⟨h1, h2, h3, _⟩ := h
          subst h1; subst h2; subst h3
          have hlen := replaceAt_length
            (['<', 'i', 'm', 'g', ' '] ++ pre ++
              ['s', 'r', 'c', '=', Char.ofNat 39] ++ toDataUri srcv ++
              [Char.ofNat 39] ++ post ++ ['>']) hf.2.2
          rw [hlen]
          simp only [List.length_append, List.length_cons, List.length_nil,
            imgMatchedLen] at *
          omega

/-- The scan loop of `WebViewExporter::embedBodyResources`. -/
def embedBodyGo (toDataUri : List Char → List Char) (html : List Char)
    (pos : Nat) (altered : Bool) : List Char × Bool :=
  match h : embedBodyStep toDataUri html pos with
  | none => (html, altered)
  | some (html2, pos2, _, alt) => embedBodyGo toDataUri html2 pos2 (altered || alt)
termination_by html.length - pos
decreasing_by exact (embedBodyStep_advances h).2.2

/-- `WebViewExporter::embedBodyResources` (lines 271–306): inline every
`<img>` source as a data URI.  `resolved` stands for
`p_baseUrl.resolved(·)` and `toDataUri` for `WebUtils::toDataUri(·, true)`;
`baseUrl` itself is checked for `QUrl::isEmpty` ([] models the empty URL). -/
def embedBodyResources (resolved toDataUri : List Char → List Char)
    (baseUrl html : List Char) : List Char × Bool :=
  if baseUrl.isEmpty then (html, false)
  else embedBodyGo (fun srcv => toDataUri (resolved srcv)) html 0 false

theorem embedBodyGo_none {toDataUri : List Char → List Char}
    {html : List Char} {pos : Nat} (altered : Bool)
    (h : embedBodyStep toDataUri html pos = none) :
    embedBodyGo toDataUri html pos altered = (html, altered) := by
  rw [embedBodyGo.eq_def]
  split
  · rfl
  · next heq => rw [h] at heq; exact absurd heq (by simp)

theorem embedBodyGo_some {toDataUri : List Char → List Char}
    {html html2 : List Char} {pos pos2 idx : Nat} {alt : Bool} (altered : Bool)
    (h : embedBodyStep toDataUri html pos = some (html2, pos2, idx, alt)) :
    embedBodyGo toDataUri html pos altered =
      embedBodyGo toDataUri html2 pos2 (altered || alt) := by
  rw [embedBodyGo.eq_def]
  split
  · next heq => rw [h] at heq; exact absurd heq (by simp)
  · next a b c d heq =>
    rw [h] at heq
    simp only [Option.some.injEq, Prod.mk.injEq] at heq
    obtain ⟨h1, h2, _, h4⟩ := heq
    rw [h1, h2, h4]

/-! ## `WebViewExporter::fixBodyResources` -/

/-- One iteration of the scan loop of `WebViewExporter::fixBodyResources`
(lines 325–350): skip when capture 2 is empty or the copy fails; otherwise
replace the tag by `<img <cap1>src="<relative-path>"<cap3>>` where the
relative path is `getResourceRelativePath` of the copied file.  `copyFile`
stands for `WebUtils::copyResource(p_baseUrl.resolved(reg.cap(2)), p_folder)`;
an empty result models a failed copy. -/
def fixBodyStep (copyFile : List Char → List Char) (html : List Char)
    (pos : Nat) : Option (List Char × Nat × Nat × Bool) :=
  if pos < html.length then
    match findImg html pos with
    | none => none
    | some (idx, pre, srcv, post) =>
      if srcv.isEmpty then
        some (html, idx + imgMatchedLen pre srcv post, idx, false)
      else
        let targetFile := copyFile srcv
        if targetFile.isEmpty then
          some (html, idx + imgMatchedLen pre srcv post, idx, false)
        else
          let newUrl := ['<', 'i', 'm', 'g', ' '] ++ pre ++
            ['s', 'r', 'c', '=', '"'] ++ getResourceRelativePath targetFile ++
            ['"'] ++ post ++ ['>']
          some (replaceAt html idx (imgMatchedLen pre srcv post) newUrl,
            idx + newUrl.length, idx, true)
  else none

theorem fixBodyStep_advances {copyFile : List Char → List Char}
    {html html2 : List Char} {pos pos2 idx : Nat} {alt : Bool}
    (h : fixBodyStep copyFile html pos = some (html2, pos2, idx, alt)) :
    pos ≤ idx ∧ idx < pos2 ∧ html2.length - pos2 < html.length - pos := by
  unfold fixBodyStep at h
  split at h
  case isFalse => exact absurd h (by simp)
  case isTrue hlt =>
    revert h
    split
    · intro h; exact absurd h (by simp)
    · next idx0 pre srcv post hfind =>
      have hf := findImg_spec hfind (le_of_lt hlt)
      simp only
      split
      · intro h
        simp only [Option.some.injEq, Prod.mk.injEq] at h
        obtain ⟨h1, h2, h3, _⟩ := h
        subst h1; subst h2; subst h3
        have := hf.2.2
        simp only [imgMatchedLen] at this ⊢
        omega
      · split
        · intro h
          simp only [Option.some.injEq, Prod.mk.injEq] at h
          obtain ⟨h1, h2, h3, _⟩ := h
          subst h1; subst h2; subst h3
          have := hf.2.2
          simp only [imgMatchedLen] at this ⊢
          omega
        · intro h
          simp only [Option.some.injEq, Prod.mk.injEq] at h
          obtain ⟨h1, h2, h3, _⟩ := h
          subst h1; subst h2; subst h3
          have hlen := replaceAt_length
            (['<', 'i', 'm', 'g', ' '] ++ pre ++
              ['s', 'r', 'c', '=', '"'] ++
              getResourceRelativePath (copyFile srcv) ++
              ['"'] ++ post ++ ['>']) hf.2.2
          rw [hlen]
          simp only [List.length_append, List.length_cons, List.length_nil,
            imgMatchedLen] at *
          omega

/-- The scan loop of `WebViewExporter::fixBodyResources`. -/
def fixBodyGo (copyFile : List Char → List Char) (html : List Char)
    (pos : Nat) (altered : Bool) : List Char × Bool :=
  match h : fixBodyStep copyFile html pos with
  | none => (html, altered)
  | some (html2, pos2, _, alt) => fixBodyGo copyFile html2 pos2 (altered || alt)
termination_by html.length - pos
decreasing_by exact (fixBodyStep_advances h).2.2

/-- `WebViewExporter::fixBodyResources` (lines 316–353): copy every `<img>`
resource into `folder` and rewrite its `src` to a relative path.
`resolved` stands for `p_baseUrl.resolved(·)` and `copyResource` for
`WebUtils::copyResource`; `baseUrl` itself is checked for `QUrl::isEmpty`
([] models the empty URL). -/
def fixBodyResources (resolved : List Char → List Char)
    (copyResource : List Char → List Char → List Char)
    (baseUrl folder html : List Char) : List Char × Bool :=
  if baseUrl.isEmpty then (html, false)
  else fixBodyGo (fun srcv => copyResource (resolved srcv) folder) html 0 false

theorem fixBodyGo_none {copyFile : List Char → List Char}
    {html : List Char} {pos : Nat} (altered : Bool)
    (h : fixBodyStep copyFile html pos = none) :
    fixBodyGo copyFile html pos altered = (html, altered) := by
  rw [fixBodyGo.eq_def]
  split
  · rfl
  · next heq => rw [h] at heq; exact absurd heq (by simp)

theorem fixBodyGo_some {copyFile : List Char → List Char}
    {html html2 : List Char} {pos pos2 idx : Nat} {alt : Bool} (altered : Bool)
    (h : fixBodyStep copyFile html pos = some (html2, pos2, idx, alt)) :
    fixBodyGo copyFile html pos altered =
      fixBodyGo copyFile html2 pos2 (altered || alt) := by
  rw [fixBodyGo.eq_def]
  split
  · next heq => rw [h] at heq; exact absurd heq (by simp)
  · next a b c d heq =>
    rw [h] at heq
    simp only [Option.some.injEq, Prod.mk.injEq] at heq
    obtain ⟨h1, h2, _, h4⟩ := heq
    rw [h1, h2, h4]

/-- C10: for every HTML body string (and every resolution, conversion and
copy service), when the base URL is empty both `embedBodyResources` and
`fixBodyResources` return `false` and leave the body completely unchanged:
the guard `p_baseUrl.isEmpty()` returns before any scanning, conversion or
copying. -/
theorem bodyResources_empty_baseUrl_noop
    (resolved toDataUri : List Char → List Char)
    (copyResource : List Char → List Char → List Char)
    (folder html : List Char) :
    embedBodyResources resolved toDataUri [] html = (html, false) ∧
      fixBodyResources resolved copyResource [] folder html = (html, false) := by
  constructor <;> rfl

/-- C9: each of the three rewriting scans (`embedStyleResources`,
`embedBodyResources`, `fixBodyResources`) advances its cursor strictly past
the start of the last examined match on every loop iteration — whether the
match was skipped or replaced — and strictly decreases the distance from
the cursor to the end of the (possibly respliced) subject, so no segment is
ever reprocessed and every scan terminates on every input string (the loop
bodies `embedStyleGo`/`embedBodyGo`/`fixBodyGo` are total functions by this
very measure). -/
theorem scans_always_advance :
    (∀ (toDataUri : List Char → List Char) (html html2 : List Char)
        (pos pos2 idx : Nat) (alt : Bool),
      embedStyleStep toDataUri html pos = some (html2, pos2, idx, alt) →
      pos ≤ idx ∧ idx < pos2 ∧ html2.length - pos2 < html.length - pos) ∧
    (∀ (toDataUri : List Char → List Char) (html html2 : List Char)
        (pos pos2 idx : Nat) (alt : Bool),
      embedBodyStep toDataUri html pos = some (html2, pos2, idx, alt) →
      pos ≤ idx ∧ idx < pos2 ∧ html2.length - pos2 < html.length - pos) ∧
    (∀ (copyFile : List Char → List Char) (html html2 : List Char)
        (pos pos2 idx : Nat) (alt : Bool),
      fixBodyStep copyFile html pos = some (html2, pos2, idx, alt) →
      pos ≤ idx ∧ idx < pos2 ∧ html2.length - pos2 < html.length - pos) :=
  ⟨fun _ _ _ _ _ _ _ h => embedStyleStep_advances h,
   fun _ _ _ _ _ _ _ h => embedBodyStep_advances h,
   fun _ _ _ _ _ _ _ h => fixBodyStep_advances h⟩

/-- Witness for C9: one concrete replacing iteration of each scan. -/
theorem scans_always_advance_witness :
    (0 ≤ 0 ∧ 0 < 12 ∧
      ("url('DATA');".toList).length - 12 <
        ("url(\"file:///a/b.png\");".toList).length - 0) ∧
    (0 ≤ 0 ∧ 0 < 16 ∧
      ("<img src='DATA'>".toList).length - 16 <
        ("<img src=\"i.png\">".toList).length - 0) ∧
    (0 ≤ 0 ∧ 0 < 23 ∧
      ("<img src=\"./sub/x.png\">".toList).length - 23 <
        ("<img src=\"i.png\">".toList).length - 0) :=
  ⟨scans_always_advance.1 (fun _ => "DATA".toList)
      ("url(\"file:///a/b.png\");".toList) ("url('DATA');".toList) 0 12 0 true
      (by decide),
   scans_always_advance.2.1 (fun _ => "DATA".toList)
      ("<img src=\"i.png\">".toList) ("<img src='DATA'>".toList) 0 16 0 true
      (by decide),
   scans_always_advance.2.2 (fun _ => "d/sub/x.png".toList)
      ("<img src=\"i.png\">".toList) ("<img src=\"./sub/x.png\">".toList) 0 23 0 true
      (by decide)⟩

/-! ## Index lemmas for `getResourceRelativePath` -/

theorem lastIdxLE_eq_some {s : List Char} {c : Char} {i : Nat} :
    ∀ {f : Nat}, s[i]? = some c → i ≤ f →
      (∀ j, i < j → j ≤ f → s[j]? ≠ some c) →
      lastIdxLE s c f = some i := by
  intro f
  induction f with
  | zero =>
    intro hi hif _
    have : i = 0 := by omega
    subst this
    simp [lastIdxLE, hi]
  | succ n ih =>
    intro hi hif hmax
    unfold lastIdxLE
    by_cases hc : s[n + 1]? = some c
    · have : i = n + 1 := by
        by_contra hne
        exact hmax (n + 1) (by omega) (le_refl _) hc
      subst this
      simp [hc]
    · rw [if_neg hc]
      have hif2 : i ≤ n := by
        rcases Nat.lt_or_ge i (n + 1) with h | h
        · omega
        · have : i = n + 1 := by omega
          rw [this] at hi
          exact absurd hi hc
      exact ih hi hif2 (fun j hj1 hj2 => hmax j hj1 (by omega))

theorem getElem?_two_slashes_mid {a b c : List Char} :
    (a ++ '/' :: (b ++ '/' :: c))[a.length]? = some '/' := by
  rw [List.getElem?_append_right (le_refl a.length)]
  simp

theorem getElem?_two_slashes_last {a b c : List Char} :
    (a ++ '/' :: (b ++ '/' :: c))[a.length + 1 + b.length]? = some '/' := by
  rw [List.getElem?_append_right (by omega : a.length ≤ a.length + 1 + b.length)]
  have h1 : a.length + 1 + b.length - a.length = b.length + 1 := by omega
  rw [h1]
  simp only [List.getElem?_cons_succ]
  rw [List.getElem?_append_right (le_refl b.length)]
  simp

theorem getElem?_two_slashes_in_b {a b c : List Char} {j : Nat}
    (hb : '/' ∉ b) (h1 : a.length < j) (h2 : j ≤ a.length + b.length) :
    (a ++ '/' :: (b ++ '/' :: c))[j]? ≠ some '/' := by
  rw [List.getElem?_append_right (by omega : a.length ≤ j)]
  have h3 : j - a.length = (j - a.length - 1) + 1 := by omega
  rw [h3]
  simp only [List.getElem?_cons_succ]
  rw [List.getElem?_append, if_pos (show j - a.length - 1 < b.length by omega)]
  intro hmem
  exact hb (List.getElem?_mem hmem)

theorem getElem?_two_slashes_in_c {a b c : List Char} {j : Nat}
    (hc : '/' ∉ c) (h1 : a.length + 1 + b.length < j) :
    (a ++ '/' :: (b ++ '/' :: c))[j]? ≠ some '/' := by
  rw [List.getElem?_append_right (by omega : a.length ≤ j)]
  have h3 : j - a.length = (j - a.length - 1) + 1 := by omega
  rw [h3]
  simp only [List.getElem?_cons_succ]
  rw [List.getElem?_append_right (by omega : b.length ≤ j - a.length - 1)]
  have h4 : j - a.length - 1 - b.length = (j - a.length - 1 - b.length - 1) + 1 := by
    omega
  rw [h4]
  simp only [List.getElem?_cons_succ]
  intro hmem
  exact hc (List.getElem?_mem hmem)

theorem qLastIndexOf_eq {s : List Char} {c : Char} {i : Nat} (hs : s ≠ [])
    (hlast : lastIdxLE s c (s.length - 1) = some i) :
    qLastIndexOf s c = (i : Int) := by
  unfold qLastIndexOf qLastIndexOfFrom
  have hlen : 1 ≤ s.length := List.length_pos.mpr hs
  simp only [if_pos (show (-1 : Int) < 0 by norm_num)]
  rw [if_neg (show ¬(-1 + (s.length : Int) < 0) by omega)]
  have h3 : (-1 + (s.length : Int)).toNat = s.length - 1 := by omega
  rw [h3, Nat.min_self, hlast]

theorem qLastIndexOfFrom_nonneg {s : List Char} {c : Char} {fn i : Nat}
    (hlast : lastIdxLE s c (min fn (s.length - 1)) = some i) :
    qLastIndexOfFrom s c (fn : Int) = (i : Int) := by
  unfold qLastIndexOfFrom
  rw [if_neg (show ¬((fn : Int) < 0) by omega)]
  rw [if_neg (show ¬((fn : Int) < 0) by omega)]
  have h3 : ((fn : Int)).toNat = fn := by omega
  rw [h3, hlast]

theorem qLastIndexOf_two_slashes {a b c : List Char} (hc : '/' ∉ c) :
    qLastIndexOf (a ++ '/' :: (b ++ '/' :: c)) '/' =
      ((a.length + 1 + b.length : Nat) : Int) := by
  have hplen : (a ++ '/' :: (b ++ '/' :: c)).length
      = a.length + b.length + c.length + 2 := by
    simp; omega
  apply qLastIndexOf_eq (by simp)
  apply lastIdxLE_eq_some getElem?_two_slashes_last (by omega)
  intro j hj1 _
  exact getElem?_two_slashes_in_c hc hj1

theorem qLastIndexOfFrom_two_slashes {a b c : List Char} (hb : '/' ∉ b) :
    qLastIndexOfFrom (a ++ '/' :: (b ++ '/' :: c)) '/'
        (((a.length + 1 + b.length : Nat) : Int) - 1) = (a.length : Int) := by
  have hplen : (a ++ '/' :: (b ++ '/' :: c)).length
      = a.length + b.length + c.length + 2 := by
    simp; omega
  have harg : ((a.length + 1 + b.length : Nat) : Int) - 1 =
      ((a.length + b.length : Nat) : Int) := by push_cast; ring
  rw [harg]
  apply qLastIndexOfFrom_nonneg
  have hmin : min (a.length + b.length)
      ((a ++ '/' :: (b ++ '/' :: c)).length - 1) = a.length + b.length := by
    omega
  rw [hmin]
  apply lastIdxLE_eq_some getElem?_two_slashes_mid (by omega)
  intro j hj1 hj2
  exact getElem?_two_slashes_in_b hb hj1 hj2

/-- The general form of the path derivation in `getResourceRelativePath`:
for a copied path written as `<prefix>/<parent>/<filename>` (with the
parent segment and the filename free of slashes), the result keeps only the
last two path segments, prefixed with `.`. -/
theorem getResourceRelativePath_keeps_two_segments (a b c : List Char)
    (hb : '/' ∉ b) (hc : '/' ∉ c) :
    getResourceRelativePath (a ++ '/' :: (b ++ '/' :: c)) =
      '.' :: '/' :: (b ++ '/' :: c) := by
  simp only [getResourceRelativePath]
  rw [qLastIndexOf_two_slashes hc, qLastIndexOfFrom_two_slashes hb]
  have h1 : ((a.length : Nat) : Int).toNat = a.length := by omega
  rw [h1]
  have h2 : (a ++ '/' :: (b ++ '/' :: c)).drop a.length = '/' :: (b ++ '/' :: c) := by
    rw [List.drop_left]
  rw [h2]

/-- C8 counterexample: the claim's general formula predicts the rewritten
`src` to be `"./" + <grandparent>/<parent>/<filename>` of the copied path.
For a copy that reports `d/sub/x.png` (grandparent `d`, parent `sub`,
filename `x.png`) the code rewrites the tag to `<img src="./sub/x.png">` —
`getResourceRelativePath` keeps only the last two segments — not to the
claimed `<img src="./d/sub/x.png">`. -/
theorem fixBodyResources_grandparent_counterexample :
    fixBodyResources (fun u => u) (fun _ _ => "d/sub/x.png".toList)
        ("base".toList) ("folder".toList) ("<img src=\"i.png\">".toList) =
      ("<img src=\"./sub/x.png\">".toList, true) ∧
    ("<img src=\"./sub/x.png\">".toList : List Char) ≠
      "<img src=\"./d/sub/x.png\">".toList := by
  constructor
  · have h0 : fixBodyResources (fun u => u) (fun _ _ => "d/sub/x.png".toList)
        ("base".toList) ("folder".toList) ("<img src=\"i.png\">".toList) =
        fixBodyGo (fun _ => "d/sub/x.png".toList)
          ("<img src=\"i.png\">".toList) 0 false := rfl
    rw [h0]
    rw [fixBodyGo_some false (by decide :
      fixBodyStep (fun _ => "d/sub/x.png".toList)
        ("<img src=\"i.png\">".toList) 0 =
        some ("<img src=\"./sub/x.png\">".toList, 23, 0, true))]
    rw [fixBodyGo_none _ (by decide)]
    rfl
  · decide

/-- C8 (amended): in folder mode, for every image tag whose resource copy
succeeds, the rewritten `src` equals `"."` followed by the copied path's
suffix that starts at its second-to-last `/` — that is,
`"./" + <parent-segment>/<filename>`, dropping everything above the parent
segment; in particular, for a copied path `<folder>/sub/x.png` the
rewritten `src` equals `./sub/x.png`. -/
theorem fixBodyResources_folder_mode_rewrite (a b c : List Char)
    (hb : '/' ∉ b) (hc : '/' ∉ c) :
    getResourceRelativePath (a ++ '/' :: (b ++ '/' :: c)) =
      '.' :: '/' :: (b ++ '/' :: c) ∧
    fixBodyResources (fun u => u)
        (fun _ _ => "/out/note_files/sub/x.png".toList) ("base".toList)
        ("/out/note_files".toList) ("<img src=\"img/x.png\">".toList) =
      ("<img src=\"./sub/x.png\">".toList, true) := by
  refine ⟨getResourceRelativePath_keeps_two_segments a b c hb hc, ?_⟩
  have h0 : fixBodyResources (fun u => u)
      (fun _ _ => "/out/note_files/sub/x.png".toList) ("base".toList)
      ("/out/note_files".toList) ("<img src=\"img/x.png\">".toList) =
      fixBodyGo (fun _ => "/out/note_files/sub/x.png".toList)
        ("<img src=\"img/x.png\">".toList) 0 false := rfl
  rw [h0]
  rw [fixBodyGo_some false (by decide :
    fixBodyStep (fun _ => "/out/note_files/sub/x.png".toList)
      ("<img src=\"img/x.png\">".toList) 0 =
      some ("<img src=\"./sub/x.png\">".toList, 23, 0, true))]
  rw [fixBodyGo_none _ (by decide)]
  rfl

/-- Witness for the amended C8 at the copied path `/out/note_files/sub/x.png`. -/
theorem fixBodyResources_folder_mode_rewrite_witness :
    getResourceRelativePath ("/out/note_files".toList ++
        '/' :: ("sub".toList ++ '/' :: "x.png".toList)) =
      '.' :: '/' :: ("sub".toList ++ '/' :: "x.png".toList) ∧
    fixBodyResources (fun u => u)
        (fun _ _ => "/out/note_files/sub/x.png".toList) ("base".toList)
        ("/out/note_files".toList) ("<img src=\"img/x.png\">".toList) =
      ("<img src=\"./sub/x.png\">".toList, true) :=
  fixBodyResources_folder_mode_rewrite ("/out/note_files".toList)
    ("sub".toList) ("x.png".toList) (by decide) (by decide)

/-! ## `WebViewExporter::writeHtmlFile` -/

/-- Modelled from the spec: the export template shell with its named
substitution points (title, style, head, body), "consumed via a
fill-by-name contract" (spec §6); `HtmlTemplateHelper` is not under the
provided sources, so each placeholder is a slot recording the content
filled into it (`none` = still unfilled). -/
structure ExportTemplate where
  titleContent : Option (List Char)
  styleContent : Option (List Char)
  headContent : Option (List Char)
  bodyContent : Option (List Char)
deriving DecidableEq

/-- Modelled from the spec: `HtmlTemplateHelper::fillTitle`. -/
def fillTitle (t : ExportTemplate) (v : List Char) : ExportTemplate :=
  { t with titleContent := some v }

/-- Modelled from the spec: `HtmlTemplateHelper::fillStyleContent`. -/
def fillStyleContent (t : ExportTemplate) (v : List Char) : ExportTemplate :=
  { t with styleContent := some v }

/-- Modelled from the spec: `HtmlTemplateHelper::fillHeadContent`. -/
def fillHeadContent (t : ExportTemplate) (v : List Char) : ExportTemplate :=
  { t with headContent := some v }

/-- Modelled from the spec: `HtmlTemplateHelper::fillBodyContent`. -/
def fillBodyContent (t : ExportTemplate) (v : List Char) : ExportTemplate :=
  { t with bodyContent := some v }

/-- The external library services consumed by `writeHtmlFile`
(`QFileInfo::completeBaseName`, `PathUtils`, `ConfigMgr::c_appName`,
`WebUtils`, and the outcome of `FileUtils::writeFile`, which the source
never inspects). -/
structure ExternalServices where
  completeBaseName : List Char → List Char
  parentDirPath : List Char → List Char
  concatFilePath : List Char → List Char → List Char
  appName : List Char
  toDataUriStyle : List Char → List Char
  resolved : List Char → List Char → List Char
  toDataUriImg : List Char → List Char
  copyResource : List Char → List Char → List Char
  writeFileOk : Bool

/-- `WebViewExporter::writeHtmlFile` (lines 158–210): fill the export
template shell and write it out.  Returns the assembled template (the
document written to disk) and the function's boolean result.  The call to
`FileUtils::writeFile` and the empty-resource-folder cleanup affect only
the file system; the write call's outcome (`ext.writeFileOk`) is never
inspected, and the function ends with `return true`. -/
def writeHtmlFile (ext : ExternalServices) (exportHtmlTemplate : ExportTemplate)
    (p_file baseUrl headContent styleContent bodyContent : List Char)
    (embedStyles completePage embedImages : Bool) : ExportTemplate × Bool :=
  let baseName := ext.completeBaseName p_file
  let title := baseName ++ (' ' :: '-' :: ' ' :: ext.appName)
  let resourceFolderName := baseName ++ "_files".toList
  let resourceFolder := ext.concatFilePath (ext.parentDirPath p_file) resourceFolderName
  let t1 := fillTitle exportHtmlTemplate title
  let t2 :=
    if !styleContent.isEmpty && embedStyles then
      fillStyleContent t1 (embedStyleResources ext.toDataUriStyle styleContent).1
    else t1
  let t3 := if !headContent.isEmpty then fillHeadContent t2 headContent else t2
  let t4 :=
    if completePage then
      let bodyContent2 :=
        if embedImages then
          (embedBodyResources (ext.resolved baseUrl) ext.toDataUriImg
            baseUrl bodyContent).1
        else
          (fixBodyResources (ext.resolved baseUrl) ext.copyResource
            baseUrl resourceFolder bodyContent).1
      fillBodyContent t3 bodyContent2
    else fillBodyContent t3 bodyContent
  (t4, true)

/-- C6: `writeHtmlFile` returns `true` on every input — in particular for
every outcome `ext.writeFileOk` of the underlying write call, which is
never reflected in the return value. -/
theorem writeHtmlFile_always_returns_true (ext : ExternalServices)
    (exportHtmlTemplate : ExportTemplate)
    (p_file baseUrl headContent styleContent bodyContent : List Char)
    (embedStyles completePage embedImages : Bool) :
    (writeHtmlFile ext exportHtmlTemplate p_file baseUrl headContent
      styleContent bodyContent embedStyles completePage embedImages).2 = true := rfl

/-- A trivial instantiation of the external services, for concrete runs. -/
def trivialExt : ExternalServices :=
  ⟨fun _ => [], fun _ => [], fun _ _ => [], [], fun _ => [],
   fun _ _ => [], fun _ => [], fun _ _ => [], true⟩

/-- C4 counterexample: with the non-empty style content `x` and
`embedStyles = false`, `writeHtmlFile` leaves the style placeholder of the
export template unfilled — the style content is not inserted at all,
contrary to the claim that it is inserted merely without URL rewriting. -/
theorem writeHtmlFile_skips_style_counterexample :
    ((writeHtmlFile trivialExt ⟨none, none, none, none⟩ ("f".toList)
        ("base".toList) [] ("x".toList) ("b".toList) false false false).1).styleContent
      = none ∧
    ((writeHtmlFile trivialExt ⟨none, none, none, none⟩ ("f".toList)
        ("base".toList) [] ("x".toList) ("b".toList) false false false).1).styleContent
      ≠ some ("x".toList) := by
  constructor <;> decide

/-- C4 (amended): when `embedStyles` is false, `writeHtmlFile` does not
insert the style content into the export template's style placeholder at
all (and does not rewrite it): the condition guarding both the rewriting
and the fill is `!styleContent.isEmpty() && embedStyles`, so the style
placeholder keeps whatever the template shell already held. -/
theorem writeHtmlFile_no_style_fill_when_not_embedding
    (ext : ExternalServices) (exportHtmlTemplate : ExportTemplate)
    (p_file baseUrl headContent styleContent bodyContent : List Char)
    (completePage embedImages : Bool) :
    ((writeHtmlFile ext exportHtmlTemplate p_file baseUrl headContent
        styleContent bodyContent false completePage embedImages).1).styleContent
      = exportHtmlTemplate.styleContent := by
  unfold writeHtmlFile
  simp only [Bool.and_false, Bool.false_eq_true, if_false]
  split
  · split <;> rfl
  · split <;> rfl

end vnotex

